import Mathlib

/-!
Verification of the ibaqpy peptide-normalization core.

The definitions below are a shallow embedding of the functions in
`ibaqpy/bin/peptide_normalization.py` (and the channel maps of
`ibaq/ibaqpy_commons.py`).  DataFrames are embedded as lists of rows,
intensities as rationals, pandas `unique` / `drop_duplicates`
(keep-first) as `dedupKF`, and Python exceptions as `Option`/`Except`.
-/

set_option maxHeartbeats 1000000

/-! ### Keep-first deduplication (pandas `unique` / `drop_duplicates`) -/

/-- Remove duplicates keeping the first occurrence, skipping anything in
`seen`.  Structural recursion so that concrete instances evaluate. -/
def dedupKFAux {α : Type} [DecidableEq α] (seen : List α) : List α → List α
  | [] => []
  | a :: as =>
    if a ∈ seen then dedupKFAux seen as else a :: dedupKFAux (a :: seen) as

/-- Keep-first deduplication, the semantics of pandas `Series.unique` and
`DataFrame.drop_duplicates`. -/
def dedupKF {α : Type} [DecidableEq α] (l : List α) : List α := dedupKFAux [] l

theorem mem_dedupKFAux {α : Type} [DecidableEq α] (x : α) :
    ∀ (l seen : List α), x ∈ dedupKFAux seen l ↔ x ∈ l ∧ x ∉ seen := by
  intro l
  induction l with
  | nil => intro seen; simp [dedupKFAux]
  | cons a as ih =>
    intro seen
    by_cases ha : a ∈ seen
    · simp only [dedupKFAux, if_pos ha, ih]
      constructor
      · rintro ⟨h1, h2⟩; exact ⟨List.mem_cons_of_mem _ h1, h2⟩
      · rintro ⟨h1, h2⟩
        rcases List.mem_cons.mp h1 with h | h
        · exact absurd (h ▸ ha) h2
        · exact ⟨h, h2⟩
    · simp only [dedupKFAux, if_neg ha, List.mem_cons, ih]
      constructor
      · rintro (rfl | ⟨h1, h2⟩)
        · exact ⟨Or.inl rfl, ha⟩
        · refine ⟨Or.inr h1, fun hx => h2 (Or.inr hx)⟩
      · rintro ⟨h1 | h1, h2⟩
        · exact Or.inl h1
        · by_cases hxa : x = a
          · exact Or.inl hxa
          · exact Or.inr ⟨h1, by simp [List.mem_cons, hxa, h2]⟩

theorem mem_dedupKF {α : Type} [DecidableEq α] {x : α} {l : List α} :
    x ∈ dedupKF l ↔ x ∈ l := by
  simp [dedupKF, mem_dedupKFAux]

theorem nodup_dedupKFAux {α : Type} [DecidableEq α] :
    ∀ (l seen : List α), (dedupKFAux seen l).Nodup := by
  intro l
  induction l with
  | nil => intro seen; simp [dedupKFAux]
  | cons a as ih =>
    intro seen
    by_cases ha : a ∈ seen
    · simpa [dedupKFAux, if_pos ha] using ih seen
    · simp only [dedupKFAux, if_neg ha, List.nodup_cons]
      refine ⟨fun hmem => ?_, ih _⟩
      have := (mem_dedupKFAux a as (a :: seen)).mp hmem
      exact this.2 (List.mem_cons_self a seen)

theorem nodup_dedupKF {α : Type} [DecidableEq α] (l : List α) :
    (dedupKF l).Nodup := nodup_dedupKFAux l []

theorem dedupKFAux_map_inj {α β : Type} [DecidableEq α] [DecidableEq β]
    {f : α → β} (hf : Function.Injective f) :
    ∀ (l seen : List α),
      dedupKFAux (seen.map f) (l.map f) = (dedupKFAux seen l).map f := by
  intro l
  induction l with
  | nil => intro seen; simp [dedupKFAux]
  | cons a as ih =>
    intro seen
    by_cases ha : a ∈ seen
    · have hfa : f a ∈ seen.map f := List.mem_map_of_mem f ha
      simp only [List.map_cons, dedupKFAux, if_pos ha, if_pos hfa, ih]
    · have hfa : f a ∉ seen.map f := by
        intro hmem
        rcases List.mem_map.mp hmem with ⟨b, hb, hba⟩
        exact ha (hf hba ▸ hb)
      simp only [List.map_cons, dedupKFAux, if_pos, if_neg ha, if_neg hfa]
      have := ih (a :: seen)
      simp only [List.map_cons] at this
      rw [this]

theorem dedupKF_map_inj {α β : Type} [DecidableEq α] [DecidableEq β]
    {f : α → β} (hf : Function.Injective f) (l : List α) :
    dedupKF (l.map f) = (dedupKF l).map f := by
  simpa [dedupKF] using dedupKFAux_map_inj hf l []

/-- For a list with no duplicates, filtering for one value yields one
element when present and none otherwise. -/
theorem nodup_filter_eq_length {α : Type} [DecidableEq α] (k : α) :
    ∀ (l : List α), l.Nodup →
      (l.filter (fun x => decide (x = k))).length = if k ∈ l then 1 else 0 := by
  intro l
  induction l with
  | nil => intro _; simp
  | cons a as ih =>
    intro hnd
    rcases List.nodup_cons.mp hnd with ⟨hna, hnd'⟩
    by_cases hak : a = k
    · subst hak
      have h0 : (as.filter (fun x => decide (x = a))).length = 0 := by
        rw [ih hnd', if_neg hna]
      simp [List.filter_cons, h0]
    · have hka : ¬(k = a) := fun h => hak h.symm
      simp [List.filter_cons, hak, ih hnd', List.mem_cons, hka]

/-! ### `get_canonical_peptide` (peptide_normalization.py lines 49-57)

The Python function removes every non-greedy match of the regular
expression pattern open-bracket, shortest run of `.`-matched characters,
close-bracket (where `.` does not match a newline), then deletes every
literal dot and dash.  `findClose` is the non-greedy search for the
first closing bracket reachable without crossing a newline; `stripMods`
is `re.sub` with the empty replacement, scanning left to right. -/

def isOpening (c : Char) : Bool := c = '(' || c = '['

def isClosing (c : Char) : Bool := c = ')' || c = ']'

def findClose : List Char → Option (List Char)
  | [] => none
  | c :: cs =>
    if isClosing c then some cs
    else if c = '\n' then none
    else findClose cs

theorem findClose_length_le :
    ∀ {cs rest : List Char}, findClose cs = some rest → rest.length ≤ cs.length := by
  intro cs
  induction cs with
  | nil => intro rest h; simp [findClose] at h
  | cons c cs ih =>
    intro rest h
    by_cases hc : isClosing c = true
    · simp only [findClose, if_pos hc, Option.some.injEq] at h
      simp [← h, Nat.le_succ]
    · by_cases hn : c = '\n'
      · subst hn
        simp [findClose] at h
        exact absurd h.1 hc
      · simp only [findClose, if_neg hc, if_neg hn] at h
        exact Nat.le_succ_of_le (ih h)

def stripMods (l : List Char) : List Char :=
  match l with
  | [] => []
  | c :: cs =>
    if isOpening c then
      match h : findClose cs with
      | some rest => stripMods rest
      | none => c :: stripMods cs
    else c :: stripMods cs
termination_by l.length
decreasing_by
  · exact Nat.lt_succ_of_le (findClose_length_le h)
  · simp
  · simp

theorem stripMods_nil : stripMods [] = [] := by rw [stripMods]

theorem stripMods_cons_open_some {c : Char} {cs rest : List Char}
    (ho : isOpening c = true) (hf : findClose cs = some rest) :
    stripMods (c :: cs) = stripMods rest := by
  rw [stripMods, if_pos ho]
  split
  · rename_i heq
    rw [hf] at heq
    cases heq
    rfl
  · rename_i heq
    rw [hf] at heq
    cases heq

theorem stripMods_cons_open_none {c : Char} {cs : List Char}
    (ho : isOpening c = true) (hf : findClose cs = none) :
    stripMods (c :: cs) = c :: stripMods cs := by
  rw [stripMods, if_pos ho]
  split
  · rename_i heq
    rw [hf] at heq
    cases heq
  · rfl

theorem stripMods_cons_nonopen {c : Char} {cs : List Char}
    (ho : isOpening c = false) :
    stripMods (c :: cs) = c :: stripMods cs := by
  rw [stripMods, if_neg (by simp [ho])]

/-- A string has a (non-greedy) bracket match somewhere. -/
def hasMatch : List Char → Bool
  | [] => false
  | c :: cs => (isOpening c && (findClose cs).isSome) || hasMatch cs

/-- If no closing bracket is reachable before a newline, the same is true
after stripping matches from the tail. -/
theorem findClose_none_stripMods_fuel :
    ∀ (n : Nat) (cs : List Char), cs.length ≤ n →
      findClose cs = none → findClose (stripMods cs) = none := by
  intro n
  induction n with
  | zero =>
    intro cs hlen _
    have : cs = [] := List.length_eq_zero.mp (Nat.le_zero.mp hlen)
    subst this
    simp [stripMods_nil, findClose]
  | succ n ih =>
    intro cs hlen h
    cases cs with
    | nil => simp [stripMods_nil, findClose]
    | cons c cs' =>
      have hlen' : cs'.length ≤ n := Nat.le_of_succ_le_succ hlen
      by_cases hc : isClosing c = true
      · simp [findClose, hc] at h
      · by_cases hnl : c = '\n'
        · subst hnl
          have ho : isOpening '\n' = false := by decide
          rw [stripMods_cons_nonopen ho]
          simp [findClose, hc]
        · simp only [findClose, if_neg hc, if_neg hnl] at h
          have htail : findClose (stripMods cs') = none := ih cs' hlen' h
          by_cases ho : isOpening c = true
          · rw [stripMods_cons_open_none ho h]
            simp [findClose, hc, hnl, htail]
          · rw [stripMods_cons_nonopen (by simpa using ho)]
            simp [findClose, hc, hnl, htail]

theorem findClose_none_stripMods {cs : List Char}
    (h : findClose cs = none) : findClose (stripMods cs) = none :=
  findClose_none_stripMods_fuel cs.length cs le_rfl h

theorem hasMatch_stripMods_fuel :
    ∀ (n : Nat) (cs : List Char), cs.length ≤ n →
      hasMatch (stripMods cs) = false := by
  intro n
  induction n with
  | zero =>
    intro cs hlen
    have : cs = [] := List.length_eq_zero.mp (Nat.le_zero.mp hlen)
    subst this
    simp [stripMods_nil, hasMatch]
  | succ n ih =>
    intro cs hlen
    cases cs with
    | nil => simp [stripMods_nil, hasMatch]
    | cons c cs' =>
      have hlen' : cs'.length ≤ n := Nat.le_of_succ_le_succ hlen
      by_cases ho : isOpening c = true
      · cases hf : findClose cs' with
        | some rest =>
          rw [stripMods_cons_open_some ho hf]
          exact ih rest (Nat.le_trans (findClose_length_le hf) hlen')
        | none =>
          rw [stripMods_cons_open_none ho hf]
          simp [hasMatch, ih cs' hlen', findClose_none_stripMods hf]
      · rw [stripMods_cons_nonopen (by simpa using ho)]
        simp [hasMatch, ih cs' hlen', ho]

/-- The output of `stripMods` contains no match at all. -/
theorem hasMatch_stripMods (cs : List Char) :
    hasMatch (stripMods cs) = false :=
  hasMatch_stripMods_fuel cs.length cs le_rfl

/-- On match-free input, `stripMods` is the identity. -/
theorem stripMods_of_hasMatch_false :
    ∀ {l : List Char}, hasMatch l = false → stripMods l = l := by
  intro l
  induction l with
  | nil => intro _; exact stripMods_nil
  | cons c cs ih =>
    intro h
    simp only [hasMatch, Bool.or_eq_false_iff, Bool.and_eq_false_iff] at h
    obtain ⟨h1, h2⟩ := h
    by_cases ho : isOpening c = true
    · have hf : findClose cs = none := by
        rcases h1 with h1 | h1
        · rw [ho] at h1; cases h1
        · exact Option.not_isSome_iff_eq_none.mp (by simp [h1])
      rw [stripMods_cons_open_none ho hf, ih h2]
    · rw [stripMods_cons_nonopen (by simpa using ho), ih h2]

theorem stripMods_idem (l : List Char) :
    stripMods (stripMods l) = stripMods l :=
  stripMods_of_hasMatch_false (hasMatch_stripMods l)

/-- The separator filter of `get_canonical_peptide`: Python
`replace(".", "").replace("-", "")`. -/
def keepSep (c : Char) : Bool := decide (c ≠ '.' ∧ c ≠ '-')

/-- Removing characters that are neither closing brackets nor newlines
cannot make a closing bracket reachable. -/
theorem findClose_none_filter {P : Char → Bool} (hP : P '\n' = true) :
    ∀ {cs : List Char}, findClose cs = none → findClose (cs.filter P) = none := by
  intro cs
  induction cs with
  | nil => intro _; simp [findClose]
  | cons c cs' ih =>
    intro h
    by_cases hc : isClosing c = true
    · simp [findClose, hc] at h
    · by_cases hnl : c = '\n'
      · subst hnl
        rw [List.filter_cons, if_pos hP]
        simp [findClose, hc]
      · simp only [findClose, if_neg hc, if_neg hnl] at h
        rw [List.filter_cons]
        by_cases hPc : P c = true
        · rw [if_pos hPc]
          simp [findClose, hc, hnl, ih h]
        · rw [if_neg hPc]
          exact ih h

theorem hasMatch_filter {P : Char → Bool} (hP : P '\n' = true) :
    ∀ {l : List Char}, hasMatch l = false → hasMatch (l.filter P) = false := by
  intro l
  induction l with
  | nil => intro _; simp [hasMatch]
  | cons c cs ih =>
    intro h
    simp only [hasMatch, Bool.or_eq_false_iff, Bool.and_eq_false_iff] at h
    obtain ⟨h1, h2⟩ := h
    rw [List.filter_cons]
    by_cases hPc : P c = true
    · rw [if_pos hPc]
      simp only [hasMatch, Bool.or_eq_false_iff, Bool.and_eq_false_iff]
      refine ⟨?_, ih h2⟩
      by_cases ho : isOpening c = true
      · have hf : findClose cs = none := by
          rcases h1 with h1 | h1
          · rw [ho] at h1; cases h1
          · exact Option.not_isSome_iff_eq_none.mp (by simp [h1])
        right
        simp [findClose_none_filter hP hf]
      · left; simpa using ho
    · rw [if_neg hPc]
      exact ih h2

/-- `get_canonical_peptide` from peptide_normalization.py: strip bracketed
or parenthesized modification annotations, then delete dots and dashes. -/
def get_canonical_peptide (peptide_sequence : String) : String :=
  String.mk ((stripMods peptide_sequence.data).filter keepSep)

/-- C9: `get_canonical_peptide` is idempotent on every input string. -/
theorem get_canonical_peptide_idem (s : String) :
    get_canonical_peptide (get_canonical_peptide s) = get_canonical_peptide s := by
  unfold get_canonical_peptide
  have hdata : (String.mk ((stripMods s.data).filter keepSep)).data
      = (stripMods s.data).filter keepSep := rfl
  rw [hdata]
  have hnl : keepSep '\n' = true := by decide
  have h1 : hasMatch ((stripMods s.data).filter keepSep) = false :=
    hasMatch_filter hnl (hasMatch_stripMods s.data)
  rw [stripMods_of_hasMatch_false h1]
  rw [List.filter_filter]
  congr 1
  apply List.filter_congr
  intro c _
  simp [Bool.and_self]

/-! ### `parse_uniprot_accession` (peptide_normalization.py lines 33-46)

Python `str.split` on a one-character separator and `str.join` are
embedded at the character-list level: `splitOnChar` returns the list of
separator-free fields (`"".split(sep) == [""]`), `joinChar` interleaves
the separator. -/

def splitOnChar (sep : Char) : List Char → List (List Char)
  | [] => [[]]
  | c :: cs =>
    if c = sep then [] :: splitOnChar sep cs
    else
      match splitOnChar sep cs with
      | [] => [[c]]
      | p :: ps => (c :: p) :: ps

def joinChar (sep : Char) : List (List Char) → List Char
  | [] => []
  | [x] => x
  | x :: xs => x ++ sep :: joinChar sep xs

theorem splitOnChar_ne_nil (sep : Char) :
    ∀ (l : List Char), splitOnChar sep l ≠ [] := by
  intro l
  cases l with
  | nil => simp [splitOnChar]
  | cons c cs =>
    by_cases h : c = sep
    · simp [splitOnChar, h]
    · simp only [splitOnChar, if_neg h]
      cases splitOnChar sep cs <;> simp

theorem sep_not_mem_of_mem_splitOnChar {sep : Char} :
    ∀ {l p : List Char}, p ∈ splitOnChar sep l → sep ∉ p := by
  intro l
  induction l with
  | nil =>
    intro p hp
    simp [splitOnChar] at hp
    simp [hp]
  | cons c cs ih =>
    intro p hp
    by_cases h : c = sep
    · rw [splitOnChar, if_pos h] at hp
      rcases List.mem_cons.mp hp with rfl | hp'
      · simp
      · exact ih hp'
    · rw [splitOnChar, if_neg h] at hp
      rcases hq : splitOnChar sep cs with _ | ⟨q, qs⟩
      · exact absurd hq (splitOnChar_ne_nil sep cs)
      · rw [hq] at hp
        rcases List.mem_cons.mp hp with rfl | hp'
        · intro hmem
          rcases List.mem_cons.mp hmem with rfl | hmem'
          · exact h rfl
          · exact ih (hq ▸ List.mem_cons_self q qs) hmem'
        · exact ih (hq ▸ List.mem_cons_of_mem q hp')

theorem chars_of_mem_splitOnChar {sep : Char} :
    ∀ {l p : List Char}, p ∈ splitOnChar sep l → ∀ {c : Char}, c ∈ p → c ∈ l := by
  intro l
  induction l with
  | nil =>
    intro p hp c hc
    simp [splitOnChar] at hp
    subst hp
    simp at hc
  | cons a cs ih =>
    intro p hp c hc
    by_cases h : a = sep
    · rw [splitOnChar, if_pos h] at hp
      rcases List.mem_cons.mp hp with rfl | hp'
      · simp at hc
      · exact List.mem_cons_of_mem a (ih hp' hc)
    · rw [splitOnChar, if_neg h] at hp
      rcases hq : splitOnChar sep cs with _ | ⟨q, qs⟩
      · exact absurd hq (splitOnChar_ne_nil sep cs)
      · rw [hq] at hp
        rcases List.mem_cons.mp hp with rfl | hp'
        · rcases List.mem_cons.mp hc with rfl | hc'
          · exact List.mem_cons_self c cs
          · exact List.mem_cons_of_mem a
              (ih (hq ▸ List.mem_cons_self q qs) hc')
        · exact List.mem_cons_of_mem a
            (ih (hq ▸ List.mem_cons_of_mem q hp') hc)

theorem splitOnChar_of_not_mem {sep : Char} :
    ∀ {l : List Char}, sep ∉ l → splitOnChar sep l = [l] := by
  intro l
  induction l with
  | nil => intro _; rfl
  | cons c cs ih =>
    intro h
    have hc : ¬(c = sep) := fun hcs => h (hcs ▸ List.mem_cons_self c cs)
    have hcs : sep ∉ cs := fun hmem => h (List.mem_cons_of_mem c hmem)
    rw [splitOnChar, if_neg hc, ih hcs]

theorem splitOnChar_append_sep {sep : Char} :
    ∀ {x rest : List Char}, sep ∉ x →
      splitOnChar sep (x ++ sep :: rest) = x :: splitOnChar sep rest := by
  intro x
  induction x with
  | nil =>
    intro rest _
    simp [splitOnChar]
  | cons c x' ih =>
    intro rest h
    have hc : ¬(c = sep) := fun hcs => h (hcs ▸ List.mem_cons_self c x')
    have hx' : sep ∉ x' := fun hmem => h (List.mem_cons_of_mem c hmem)
    rw [List.cons_append, splitOnChar, if_neg hc, ih hx']

theorem splitOnChar_joinChar {sep : Char} :
    ∀ {parts : List (List Char)}, parts ≠ [] →
      (∀ p ∈ parts, sep ∉ p) → splitOnChar sep (joinChar sep parts) = parts := by
  intro parts
  induction parts with
  | nil => intro h _; exact absurd rfl h
  | cons x xs ih =>
    intro _ hsep
    cases xs with
    | nil =>
      show splitOnChar sep (joinChar sep [x]) = [x]
      rw [joinChar]
      exact splitOnChar_of_not_mem (hsep x (List.mem_cons_self x []))
    | cons y ys =>
      show splitOnChar sep (joinChar sep (x :: y :: ys)) = x :: y :: ys
      rw [joinChar]
      rw [splitOnChar_append_sep (hsep x (List.mem_cons_self x (y :: ys)))]
      rw [ih (by simp) (fun p hp => hsep p (List.mem_cons_of_mem x hp))]
      simp

/-- Per-accession transformation of `parse_uniprot_accession`: when the
accession has exactly two pipe characters, take the second
pipe-delimited field (`accession.split("|")[1]`), otherwise keep the
accession.  The `getD` default is never used: two pipes give three
fields. -/
def parseAcc (acc : List Char) : List Char :=
  if acc.count '|' = 2 then (splitOnChar '|' acc).getD 1 acc else acc

/-- `parse_uniprot_accession`: split the protein-group string on `;`,
map `parseAcc` over the accessions, and rejoin with `;`. -/
def parse_uniprot_accession (uniprot_id : String) : String :=
  String.mk (joinChar ';' ((splitOnChar ';' uniprot_id.data).map parseAcc))

theorem length_splitOnChar (sep : Char) :
    ∀ (l : List Char), (splitOnChar sep l).length = l.count sep + 1 := by
  intro l
  induction l with
  | nil => simp [splitOnChar]
  | cons c cs ih =>
    by_cases h : c = sep
    · subst h
      simp [splitOnChar, List.count_cons, ih]
    · rw [splitOnChar, if_neg h]
      rcases hq : splitOnChar sep cs with _ | ⟨q, qs⟩
      · exact absurd hq (splitOnChar_ne_nil sep cs)
      · rw [hq] at ih
        simp only [List.length_cons] at ih ⊢
        rw [List.count_cons]
        simp [h, ih]

theorem sep_not_mem_parseAcc {p : List Char} (hp : (';' : Char) ∉ p) :
    (';' : Char) ∉ parseAcc p := by
  unfold parseAcc
  by_cases h2 : p.count '|' = 2
  · rw [if_pos h2]
    rcases hg : (splitOnChar '|' p).get? 1 with _ | q
    · rw [List.getD, hg]
      exact hp
    · rw [List.getD, hg]
      intro hmem
      exact hp (chars_of_mem_splitOnChar (List.get?_mem hg) hmem)
  · rw [if_neg h2]
    exact hp

/-- C7: `parse_uniprot_accession` maps each semicolon-separated accession
through `parseAcc` (second pipe-delimited field when the accession has
exactly two pipes, else the raw accession), preserving the number and
order of accessions; with exactly two pipes the accession splits into
exactly three pipe-delimited fields, so the second field exists. -/
theorem parse_uniprot_accession_spec (s : String) :
    splitOnChar ';' (parse_uniprot_accession s).data
        = (splitOnChar ';' s.data).map parseAcc
    ∧ (splitOnChar ';' (parse_uniprot_accession s).data).length
        = (splitOnChar ';' s.data).length
    ∧ (∀ p ∈ splitOnChar ';' s.data,
        (p.count '|' = 2 →
          parseAcc p = (splitOnChar '|' p).getD 1 p
            ∧ (splitOnChar '|' p).length = 3)
        ∧ (p.count '|' ≠ 2 → parseAcc p = p)) := by
  have hmain : splitOnChar ';' (parse_uniprot_accession s).data
      = (splitOnChar ';' s.data).map parseAcc := by
    have hdata : (parse_uniprot_accession s).data
        = joinChar ';' ((splitOnChar ';' s.data).map parseAcc) := rfl
    rw [hdata]
    apply splitOnChar_joinChar
    · simp [splitOnChar_ne_nil ';' s.data]
    · intro p hp
      rcases List.mem_map.mp hp with ⟨q, hq, rfl⟩
      exact sep_not_mem_parseAcc (sep_not_mem_of_mem_splitOnChar hq)
  refine ⟨hmain, by rw [hmain]; simp, ?_⟩
  intro p _
  constructor
  · intro h2
    refine ⟨by rw [parseAcc, if_pos h2], ?_⟩
    rw [length_splitOnChar, h2]
  · intro h2
    rw [parseAcc, if_neg h2]

/-! ### `get_label` (peptide_normalization.py lines 97-131) and the
channel maps (ibaq/ibaqpy_commons.py lines 41-100)

The label-token collections are Python sets of distinct strings,
embedded as duplicate-free `List String`.  `",".join(labels)` is
`joinComma`; Python `in` on strings is the contiguous-run test
`containsSub`; `exit(...)` is `none`. -/

def TMT16plex : List (String × Nat) :=
  [("TMT126", 1), ("TMT127N", 2), ("TMT127C", 3), ("TMT128N", 4),
   ("TMT128C", 5), ("TMT129N", 6), ("TMT129C", 7), ("TMT130N", 8),
   ("TMT130C", 9), ("TMT131N", 10), ("TMT131C", 11), ("TMT132N", 12),
   ("TMT132C", 13), ("TMT133N", 14), ("TMT133C", 15), ("TMT134N", 16)]

def TMT11plex : List (String × Nat) :=
  [("TMT126", 1), ("TMT127N", 2), ("TMT127C", 3), ("TMT128N", 4),
   ("TMT128C", 5), ("TMT129N", 6), ("TMT129C", 7), ("TMT130N", 8),
   ("TMT130C", 9), ("TMT131N", 10), ("TMT131C", 11)]

def TMT10plex : List (String × Nat) :=
  [("TMT126", 1), ("TMT127N", 2), ("TMT127C", 3), ("TMT128N", 4),
   ("TMT128C", 5), ("TMT129N", 6), ("TMT129C", 7), ("TMT130N", 8),
   ("TMT130C", 9), ("TMT131", 10)]

def TMT6plex : List (String × Nat) :=
  [("TMT126", 1), ("TMT127", 2), ("TMT128", 3), ("TMT129", 4),
   ("TMT130", 5), ("TMT131", 6)]

def ITRAQ4plex : List (String × Nat) :=
  [("ITRAQ114", 1), ("ITRAQ115", 2), ("ITRAQ116", 3), ("ITRAQ117", 4)]

def ITRAQ8plex : List (String × Nat) :=
  [("ITRAQ113", 1), ("ITRAQ114", 2), ("ITRAQ115", 3), ("ITRAQ116", 4),
   ("ITRAQ117", 5), ("ITRAQ118", 6), ("ITRAQ119", 7), ("ITRAQ121", 8)]

/-- Does `ndl` start the list `hay`? -/
def startsWithChars : List Char → List Char → Bool
  | _, [] => true
  | [], _ :: _ => false
  | a :: as, b :: bs => a = b && startsWithChars as bs

/-- Does `ndl` occur as a contiguous run inside `hay`?  Embeds the Python
substring test `ndl in hay`. -/
def containsSub (ndl : List Char) : List Char → Bool
  | [] => startsWithChars [] ndl
  | c :: t => startsWithChars (c :: t) ndl || containsSub ndl t

/-- `",".join(labels)` at the character level. -/
def joinComma : List String → List Char
  | [] => []
  | [s] => s.data
  | s :: rest => s.data ++ ',' :: joinComma rest

/-- `get_label` from peptide_normalization.py.  `none` models the
`exit(...)` process abort for unsupported label schemes. -/
def get_label (labels : List String) : Option (String × Option (List (String × Nat))) :=
  if labels.length = 1 then some ("LFQ", none)
  else if containsSub "TMT".data (joinComma labels)
      || containsSub "tmt".data (joinComma labels) then
    some ("TMT",
      some (if 11 < labels.length
              ∨ "TMT134N" ∈ labels ∨ "TMT133C" ∈ labels
              ∨ "TMT133N" ∈ labels ∨ "TMT132C" ∈ labels
              ∨ "TMT132N" ∈ labels then TMT16plex
            else if labels.length = 11 ∨ "TMT131C" ∈ labels then TMT11plex
            else if 6 < labels.length then TMT10plex
            else TMT6plex))
  else if containsSub "ITRAQ".data (joinComma labels)
      || containsSub "itraq".data (joinComma labels) then
    some ("ITRAQ", some (if 4 < labels.length then ITRAQ8plex else ITRAQ4plex))
  else none

theorem startsWithChars_append (x y : List Char) :
    startsWithChars (x ++ y) x = true := by
  induction x with
  | nil => cases y <;> rfl
  | cons a as ih => simp [startsWithChars, ih]

theorem containsDropPrefix (ndl : List Char) :
    ∀ (a t : List Char), containsSub ndl t = true → containsSub ndl (a ++ t) = true := by
  intro a
  induction a with
  | nil => intro t h; exact h
  | cons c cs ih =>
    intro t h
    simp only [List.cons_append, containsSub, Bool.or_eq_true]
    exact Or.inr (ih t h)

theorem containsSub_here (ndl rest : List Char) :
    containsSub ndl (ndl ++ rest) = true := by
  cases hn : ndl ++ rest with
  | nil => simp_all [containsSub, startsWithChars, List.append_eq_nil]
  | cons c t =>
    rw [containsSub, ← hn, startsWithChars_append]
    simp

theorem startsWithChars_extend :
    ∀ (ndl x y : List Char), startsWithChars x ndl = true →
      startsWithChars (x ++ y) ndl = true := by
  intro ndl
  induction ndl with
  | nil => intro x y _; cases x ++ y <;> rfl
  | cons n ns ih =>
    intro x y h
    cases x with
    | nil => simp [startsWithChars] at h
    | cons a as =>
      simp only [startsWithChars, Bool.and_eq_true] at h
      simp only [List.cons_append, startsWithChars, Bool.and_eq_true]
      exact ⟨h.1, ih as y h.2⟩

theorem containsSub_extend (ndl : List Char) :
    ∀ (x y : List Char), containsSub ndl x = true →
      containsSub ndl (x ++ y) = true := by
  intro x
  induction x with
  | nil =>
    intro y h
    cases ndl with
    | nil =>
      cases y with
      | nil => exact h
      | cons c t => simp [containsSub, startsWithChars]
    | cons n ns => simp [containsSub, startsWithChars] at h
  | cons c cs ih =>
    intro y h
    simp only [containsSub, Bool.or_eq_true] at h
    simp only [List.cons_append, containsSub, Bool.or_eq_true]
    rcases h with h | h
    · exact Or.inl (startsWithChars_extend ndl (c :: cs) y h)
    · exact Or.inr (ih y h)

/-- A label token occurring in the list occurs contiguously in the
comma-join of the list. -/
theorem containsSub_joinComma {ndl : List Char} {t : String} :
    ∀ {labels : List String}, t ∈ labels → containsSub ndl t.data = true →
      containsSub ndl (joinComma labels) = true := by
  intro labels
  induction labels with
  | nil => intro h _; simp at h
  | cons s rest ih =>
    intro hmem hin
    rcases List.mem_cons.mp hmem with rfl | hmem'
    · cases rest with
      | nil => exact hin
      | cons r rs =>
        have hj : joinComma (t :: r :: rs) = t.data ++ ',' :: joinComma (r :: rs) := rfl
        rw [hj]
        exact containsSub_extend ndl t.data (',' :: joinComma (r :: rs)) hin
    · cases rest with
      | nil => simp at hmem'
      | cons r rs =>
        have hj : joinComma (s :: r :: rs) = s.data ++ ',' :: joinComma (r :: rs) := rfl
        rw [hj]
        have h2 := containsDropPrefix ndl (s.data ++ [',']) (joinComma (r :: rs))
          (ih hmem' hin)
        simpa using h2

/-- C5: with exactly one distinct label token, `get_label` returns scheme
LFQ and no channel map, whatever the token is. -/
theorem get_label_singleton_lfq (labels : List String)
    (h : labels.length = 1) : get_label labels = some ("LFQ", none) := by
  unfold get_label
  rw [if_pos h]

/-- Witness for C5 at a token that even mentions TMT. -/
theorem get_label_singleton_lfq_witness :
    get_label ["TMT126"] = some ("LFQ", none) :=
  get_label_singleton_lfq ["TMT126"] rfl

/-- Counterexample to C3 as stated: the token set {TMT126, TMT131C} has
cardinality 2 ≤ 6 and contains TMT tokens, yet `get_label` returns the
11-plex map (the TMT131C marker overrides the cardinality rule), not the
6-plex map. -/
theorem get_label_tmt_cardinality_cex :
    ("TMT126" : String) ∈ ["TMT126", "TMT131C"]
    ∧ containsSub "TMT".data "TMT126".data = true
    ∧ ([("TMT126" : String), "TMT131C"].length ≤ 6)
    ∧ get_label ["TMT126", "TMT131C"] = some ("TMT", some TMT11plex)
    ∧ get_label ["TMT126", "TMT131C"] ≠ some ("TMT", some TMT6plex) := by
  decide

/-- C3 amended: for a token set of cardinality ≠ 1 with a token containing
"TMT" or "tmt", `get_label` returns scheme TMT and chooses the variant by
cardinality with channel-marker overrides: 16-plex when cardinality > 11
or any of TMT134N/TMT133C/TMT133N/TMT132C/TMT132N is present; else
11-plex when cardinality = 11 or TMT131C is present; else 10-plex when
cardinality > 6; else 6-plex. -/
theorem get_label_tmt_spec (labels : List String)
    (h1 : labels.length ≠ 1)
    (h2 : ∃ t ∈ labels, containsSub "TMT".data t.data = true
            ∨ containsSub "tmt".data t.data = true) :
    get_label labels =
      some ("TMT",
        some (if 11 < labels.length
                ∨ "TMT134N" ∈ labels ∨ "TMT133C" ∈ labels
                ∨ "TMT133N" ∈ labels ∨ "TMT132C" ∈ labels
                ∨ "TMT132N" ∈ labels then TMT16plex
              else if labels.length = 11 ∨ "TMT131C" ∈ labels then TMT11plex
              else if 6 < labels.length then TMT10plex
              else TMT6plex)) := by
  obtain ⟨t, hmem, hin⟩ := h2
  have hjoin : (containsSub "TMT".data (joinComma labels)
      || containsSub "tmt".data (joinComma labels)) = true := by
    rcases hin with h | h
    · simp [containsSub_joinComma hmem h]
    · simp [containsSub_joinComma hmem h]
  unfold get_label
  rw [if_neg h1, if_pos (by simpa using hjoin)]

/-- Witness for the amended C3 at a three-token set (6-plex branch). -/
theorem get_label_tmt_spec_witness :
    get_label ["TMT126", "TMT127", "TMT128"] = some ("TMT", some TMT6plex) := by
  rw [get_label_tmt_spec ["TMT126", "TMT127", "TMT128"] (by decide)
    ⟨"TMT126", by decide, Or.inl (by decide)⟩]
  decide

/-! ### Feature rows (columns used by the per-sample pipeline stages) -/

structure Row where
  proteinName : String
  peptideSequence : String
  peptideCanonical : String
  precursorCharge : Int
  normIntensity : Option ℚ
  sampleID : String
  bioReplicate : String
  condition : String
deriving DecidableEq

/-! ### `sum_peptidoform_intensities` (peptide_normalization.py lines 278-301) -/

/-- Grouping key of the final peptidoform summation:
(ProteinName, PeptideCanonical, SampleID, BioReplicate, Condition). -/
abbrev SumKey := String × String × String × String × String

def keyS (r : Row) : SumKey :=
  (r.proteinName, r.peptideCanonical, r.sampleID, r.bioReplicate, r.condition)

/-- Rows surviving `dropna(subset=[NORM_INTENSITY])`, projected to the six
retained columns (the five key columns plus NormIntensity). -/
def sumRowsOf (rows : List Row) : List (SumKey × ℚ) :=
  rows.filterMap (fun r => r.normIntensity.map (fun v => (keyS r, v)))

/-- The `groupby(...)[NORM_INTENSITY].transform("sum")` group total. -/
def sumKeyGroupTotal (ps : List (SumKey × ℚ)) (k : SumKey) : ℚ :=
  ((ps.filter (fun p => decide (p.1 = k))).map (fun p => p.2)).sum

/-- `sum_peptidoform_intensities`: drop missing intensities, keep the key
columns plus NormIntensity, overwrite NormIntensity with the group total,
then `drop_duplicates` (keep first). -/
def sum_peptidoform_intensities (rows : List Row) : List (SumKey × ℚ) :=
  dedupKF ((sumRowsOf rows).map
    (fun p => (p.1, sumKeyGroupTotal (sumRowsOf rows) p.1)))

/-- Sum of the non-missing intensities of the input rows with key `k`. -/
def inputGroupSum (rows : List Row) (k : SumKey) : ℚ :=
  ((rows.filter (fun r => decide (keyS r = k))).filterMap
    (fun r => r.normIntensity)).sum

theorem filter_map_comp {α β : Type} (f : α → β) (q : β → Bool) :
    ∀ (l : List α), (l.map f).filter q = (l.filter (fun a => q (f a))).map f := by
  intro l
  induction l with
  | nil => simp
  | cons a as ih =>
    by_cases h : q (f a) = true
    · simp [List.filter_cons, h, ih]
    · simp [List.filter_cons, h, ih]

theorem sumRowsOf_cons_none {r : Row} {rs : List Row}
    (hv : r.normIntensity = none) : sumRowsOf (r :: rs) = sumRowsOf rs := by
  simp [sumRowsOf, List.filterMap_cons, hv]

theorem sumRowsOf_cons_some {r : Row} {rs : List Row} {v : ℚ}
    (hv : r.normIntensity = some v) :
    sumRowsOf (r :: rs) = (keyS r, v) :: sumRowsOf rs := by
  simp [sumRowsOf, List.filterMap_cons, hv]

theorem sumRowsOf_group_vals (k : SumKey) :
    ∀ (rows : List Row),
      (((sumRowsOf rows).filter (fun p => decide (p.1 = k))).map (fun p => p.2))
        = (rows.filter (fun r => decide (keyS r = k))).filterMap
            (fun r => r.normIntensity) := by
  intro rows
  induction rows with
  | nil => simp [sumRowsOf]
  | cons r rs ih =>
    cases hv : r.normIntensity with
    | none =>
      rw [sumRowsOf_cons_none hv]
      by_cases hk : keyS r = k
      · simp [List.filter_cons, hk, hv, List.filterMap_cons, ih]
      · simp [List.filter_cons, hk, ih]
    | some v =>
      rw [sumRowsOf_cons_some hv]
      by_cases hk : keyS r = k
      · simp [List.filter_cons, hk, hv, List.filterMap_cons, ih]
      · simp [List.filter_cons, hk, ih]

theorem sumKeyGroupTotal_eq_inputGroupSum (rows : List Row) (k : SumKey) :
    sumKeyGroupTotal (sumRowsOf rows) k = inputGroupSum rows k := by
  rw [sumKeyGroupTotal, inputGroupSum, sumRowsOf_group_vals]

theorem mem_keys_sumRowsOf (rows : List Row) (k : SumKey) :
    k ∈ (sumRowsOf rows).map Prod.fst ↔
      ∃ r ∈ rows, (r.normIntensity).isSome ∧ keyS r = k := by
  constructor
  · intro h
    rcases List.mem_map.mp h with ⟨p, hp, hpk⟩
    rcases List.mem_filterMap.mp hp with ⟨r, hr, hro⟩
    rcases Option.map_eq_some'.mp hro with ⟨v, hv, hpv⟩
    refine ⟨r, hr, by simp [hv], ?_⟩
    rw [← hpk, ← hpv]
  · rintro ⟨r, hr, hsome, hk⟩
    rcases Option.isSome_iff_exists.mp hsome with ⟨v, hv⟩
    apply List.mem_map.mpr
    refine ⟨(keyS r, v), List.mem_filterMap.mpr ⟨r, hr, by simp [hv]⟩, hk⟩

theorem sum_peptidoform_as_map (rows : List Row) :
    sum_peptidoform_intensities rows
      = (dedupKF ((sumRowsOf rows).map Prod.fst)).map
          (fun k => (k, sumKeyGroupTotal (sumRowsOf rows) k)) := by
  have hinj : Function.Injective
      (fun k => (k, sumKeyGroupTotal (sumRowsOf rows) k)) := by
    intro a b hab
    simpa using congrArg Prod.fst hab
  rw [sum_peptidoform_intensities, ← dedupKF_map_inj hinj, List.map_map]
  rfl

/-- Membership characterization of the summation output. -/
theorem mem_sum_peptidoform (rows : List Row) (k : SumKey) (v : ℚ) :
    (k, v) ∈ sum_peptidoform_intensities rows ↔
      (∃ r ∈ rows, (r.normIntensity).isSome ∧ keyS r = k)
        ∧ v = inputGroupSum rows k := by
  rw [sum_peptidoform_as_map]
  constructor
  · intro h
    rcases List.mem_map.mp h with ⟨k', hk', hkv⟩
    have h1 : k' = k := congrArg Prod.fst hkv
    subst h1
    have h2 : v = inputGroupSum rows k' := by
      have := congrArg Prod.snd hkv
      simp at this
      rw [← this, sumKeyGroupTotal_eq_inputGroupSum]
    exact ⟨(mem_keys_sumRowsOf rows k').mp (mem_dedupKF.mp hk'), h2⟩
  · rintro ⟨hex, rfl⟩
    apply List.mem_map.mpr
    refine ⟨k, mem_dedupKF.mpr ((mem_keys_sumRowsOf rows k).mpr hex), ?_⟩
    rw [sumKeyGroupTotal_eq_inputGroupSum]

/-- C1: after summation there is exactly one output row per present key;
its intensity is the exact sum of the non-missing input intensities
mapping to that key; and the output is, as a set of rows, invariant under
permutation of the input. -/
theorem sum_peptidoform_intensities_spec (rows rows' : List Row)
    (hperm : rows.Perm rows') (k : SumKey) :
    ((sum_peptidoform_intensities rows).filter
        (fun p => decide (p.1 = k))).length
      = (if ∃ r ∈ rows, (r.normIntensity).isSome ∧ keyS r = k then 1 else 0)
    ∧ (∀ v : ℚ, (k, v) ∈ sum_peptidoform_intensities rows →
        v = inputGroupSum rows k)
    ∧ (∀ v : ℚ, (k, v) ∈ sum_peptidoform_intensities rows
        ↔ (k, v) ∈ sum_peptidoform_intensities rows') := by
  refine ⟨?_, ?_, ?_⟩
  · rw [sum_peptidoform_as_map, filter_map_comp]
    rw [List.length_map]
    have hn := nodup_dedupKF ((sumRowsOf rows).map Prod.fst)
    rw [nodup_filter_eq_length k _ hn]
    by_cases hex : ∃ r ∈ rows, (r.normIntensity).isSome ∧ keyS r = k
    · rw [if_pos hex,
        if_pos (mem_dedupKF.mpr ((mem_keys_sumRowsOf rows k).mpr hex))]
    · rw [if_neg hex, if_neg
        (fun hmem => hex ((mem_keys_sumRowsOf rows k).mp (mem_dedupKF.mp hmem)))]
  · intro v hv
    exact ((mem_sum_peptidoform rows k v).mp hv).2
  · intro v
    rw [mem_sum_peptidoform, mem_sum_peptidoform]
    have hmemiff : (∃ r ∈ rows, (r.normIntensity).isSome ∧ keyS r = k)
        ↔ ∃ r ∈ rows', (r.normIntensity).isSome ∧ keyS r = k := by
      constructor
      · rintro ⟨r, hr, h⟩; exact ⟨r, hperm.mem_iff.mp hr, h⟩
      · rintro ⟨r, hr, h⟩; exact ⟨r, hperm.mem_iff.mpr hr, h⟩
    have hsum : inputGroupSum rows k = inputGroupSum rows' k :=
      ((hperm.filter _).filterMap _).sum_eq
    rw [hmemiff, hsum]

/-- Witness for C1: two rows of one group and one of another, with the
input given in two different orders. -/
theorem sum_peptidoform_intensities_spec_witness :
    ((sum_peptidoform_intensities
        [⟨"P1", "PEPTIDEK", "PEPTIDEK", 2, some 3, "S1", "1", "c1"⟩,
         ⟨"P1", "PEPTIDEK", "PEPTIDEK", 3, some 5, "S1", "1", "c1"⟩,
         ⟨"P2", "AAAAK", "AAAAK", 2, some 7, "S1", "1", "c1"⟩]).filter
        (fun p => decide (p.1 = ("P1", "PEPTIDEK", "S1", "1", "c1")))).length = 1 := by
  have h := sum_peptidoform_intensities_spec
    [⟨"P1", "PEPTIDEK", "PEPTIDEK", 2, some 3, "S1", "1", "c1"⟩,
     ⟨"P1", "PEPTIDEK", "PEPTIDEK", 3, some 5, "S1", "1", "c1"⟩,
     ⟨"P2", "AAAAK", "AAAAK", 2, some 7, "S1", "1", "c1"⟩]
    [⟨"P1", "PEPTIDEK", "PEPTIDEK", 3, some 5, "S1", "1", "c1"⟩,
     ⟨"P1", "PEPTIDEK", "PEPTIDEK", 2, some 3, "S1", "1", "c1"⟩,
     ⟨"P2", "AAAAK", "AAAAK", 2, some 7, "S1", "1", "c1"⟩]
    (List.Perm.swap _ _ _) ("P1", "PEPTIDEK", "S1", "1", "c1")
  rw [h.1]
  rw [if_pos ⟨_, List.mem_cons_self _ _, by simp [keyS], rfl⟩]

/-! ### `get_peptidoform_normalize_intensities` (peptide_normalization.py
lines 249-275), with `higher_intensity=True` -/

/-- Peptidoform grouping key:
(PeptideSequence, PrecursorCharge, SampleID, Condition, BioReplicate). -/
abbrev PFKey := String × Int × String × String × String

def keyP (r : Row) : PFKey :=
  (r.peptideSequence, r.precursorCharge, r.sampleID, r.condition,
   r.bioReplicate)

/-- NormIntensity of a row that survived `dropna` (so `some`). -/
def valN (r : Row) : ℚ := r.normIntensity.getD 0

/-- Maximum of a nonempty list of rationals. -/
def listMax : List ℚ → ℚ
  | [] => 0
  | [x] => x
  | x :: xs => max x (listMax xs)

/-- The rows of one peptidoform group, in dataset order. -/
def pfGroup (rows' : List Row) (k : PFKey) : List Row :=
  rows'.filter (fun r => decide (keyP r = k))

/-- `idxmax` selection for one group: the first row of the group whose
NormIntensity equals the group maximum. -/
def pfSel (rows' : List Row) (k : PFKey) : Option Row :=
  (pfGroup rows' k).find?
    (fun r => decide (valN r = listMax ((pfGroup rows' k).map valN)))

/-- `get_peptidoform_normalize_intensities` with `higher_intensity=True`:
drop rows with missing NormIntensity, then `.loc[groupby(keys).idxmax()]`,
keeping for each group the first row attaining the maximal NormIntensity. -/
def get_peptidoform_normalize_intensities (rows : List Row) : List Row :=
  (dedupKF ((rows.filter (fun r => (r.normIntensity).isSome)).map keyP)).filterMap
    (pfSel (rows.filter (fun r => (r.normIntensity).isSome)))

theorem listMax_mem : ∀ {l : List ℚ}, l ≠ [] → listMax l ∈ l := by
  intro l
  induction l with
  | nil => intro h; exact absurd rfl h
  | cons x xs ih =>
    intro _
    cases xs with
    | nil => simp [listMax]
    | cons y ys =>
      show max x (listMax (y :: ys)) ∈ x :: y :: ys
      rcases max_choice x (listMax (y :: ys)) with h | h
      · rw [h]; exact List.mem_cons_self _ _
      · rw [h]; exact List.mem_cons_of_mem x (ih (by simp))

theorem find?_isSome_of_ex {α : Type} {p : α → Bool} :
    ∀ {l : List α}, (∃ x ∈ l, p x = true) → ∃ a, l.find? p = some a := by
  intro l
  induction l with
  | nil => rintro ⟨x, hx, _⟩; simp at hx
  | cons c cs ih =>
    rintro ⟨x, hx, hpx⟩
    by_cases hc : p c = true
    · exact ⟨c, by rw [List.find?_cons, hc]⟩
    · rcases List.mem_cons.mp hx with rfl | hx'
      · exact absurd hpx hc
      · rcases ih ⟨x, hx', hpx⟩ with ⟨a, ha⟩
        refine ⟨a, ?_⟩
        rw [List.find?_cons]
        simp only [Bool.not_eq_true] at hc
        rw [hc]
        exact ha

/-- What `pfSel` returns: a member of the group, with the group's key,
attaining the group maximum. -/
theorem pfSel_some_spec {rows' : List Row} {k : PFKey} {r : Row}
    (h : pfSel rows' k = some r) :
    r ∈ pfGroup rows' k ∧ keyP r = k
      ∧ valN r = listMax ((pfGroup rows' k).map valN) := by
  have hmem : r ∈ pfGroup rows' k := List.mem_of_find?_eq_some h
  have hval := List.find?_some h
  refine ⟨hmem, ?_, by simpa using hval⟩
  have := List.mem_filter.mp hmem
  simpa using this.2

theorem pfSel_isSome {rows' : List Row} {k : PFKey}
    (h : pfGroup rows' k ≠ []) : ∃ r, pfSel rows' k = some r := by
  apply find?_isSome_of_ex
  have hmap : (pfGroup rows' k).map valN ≠ [] := by
    simpa using h
  rcases List.mem_map.mp (listMax_mem hmap) with ⟨r, hr, hv⟩
  exact ⟨r, hr, by simp [hv]⟩

theorem pfSel_none {rows' : List Row} {k : PFKey}
    (h : pfGroup rows' k = []) : pfSel rows' k = none := by
  rw [pfSel, h]
  rfl

/-- Every output row's key is one of the keys fed into `filterMap`. -/
theorem keyP_mem_of_mem_filterMap_pfSel {rows' : List Row} :
    ∀ {klist : List PFKey} {r : Row},
      r ∈ klist.filterMap (pfSel rows') → keyP r ∈ klist := by
  intro klist
  induction klist with
  | nil => intro r h; simp at h
  | cons k' rest ih =>
    intro r h
    rw [List.filterMap_cons] at h
    cases hsel : pfSel rows' k' with
    | none =>
      rw [hsel] at h
      exact List.mem_cons_of_mem k' (ih h)
    | some r' =>
      rw [hsel] at h
      rcases List.mem_cons.mp h with rfl | h'
      · exact (pfSel_some_spec hsel).2.1 ▸ List.mem_cons_self k' rest
      · exact List.mem_cons_of_mem k' (ih h')

theorem filterMap_pfSel_filter_length {rows' : List Row} (k : PFKey) :
    ∀ (klist : List PFKey), klist.Nodup →
      ((klist.filterMap (pfSel rows')).filter
          (fun r => decide (keyP r = k))).length
        = if k ∈ klist ∧ pfGroup rows' k ≠ [] then 1 else 0 := by
  intro klist
  induction klist with
  | nil => intro _; simp
  | cons k' rest ih =>
    intro hnd
    rcases List.nodup_cons.mp hnd with ⟨hk', hnd'⟩
    rw [List.filterMap_cons]
    cases hsel : pfSel rows' k' with
    | none =>
      rw [ih hnd']
      by_cases hkk : k' = k
      · subst hkk
        have hempty : pfGroup rows' k' = [] := by
          by_contra hne
          rcases pfSel_isSome hne with ⟨r, hr⟩
          rw [hr] at hsel
          cases hsel
        rw [if_neg (by simp [hempty]), if_neg (by simp [hempty])]
      · have hcond : (k ∈ k' :: rest ∧ pfGroup rows' k ≠ [])
            ↔ (k ∈ rest ∧ pfGroup rows' k ≠ []) := by
          constructor
          · rintro ⟨h1, h2⟩
            rcases List.mem_cons.mp h1 with h | h
            · exact absurd h.symm hkk
            · exact ⟨h, h2⟩
          · rintro ⟨h1, h2⟩
            exact ⟨List.mem_cons_of_mem _ h1, h2⟩
        rw [if_congr hcond rfl rfl]
    | some r =>
      have hspec := pfSel_some_spec hsel
      rw [List.filter_cons]
      by_cases hkk : k' = k
      · subst hkk
        rw [if_pos (by simp [hspec.2.1])]
        have hzero : ((rest.filterMap (pfSel rows')).filter
            (fun r => decide (keyP r = k'))).length = 0 := by
          rw [List.length_eq_zero]
          apply List.filter_eq_nil_iff.mpr
          intro a ha
          simp only [decide_eq_true_eq]
          intro hkey
          exact hk' (hkey ▸ keyP_mem_of_mem_filterMap_pfSel ha)
        have hgne : pfGroup rows' k' ≠ [] := by
          intro hempty
          rw [hempty] at hspec
          exact absurd hspec.1 (List.not_mem_nil r)
        simp only [List.length_cons, hzero]
        rw [if_pos ⟨List.mem_cons_self k' rest, hgne⟩]
      · rw [if_neg (by simp [hspec.2.1, hkk])]
        rw [ih hnd']
        have hcond : (k ∈ k' :: rest ∧ pfGroup rows' k ≠ [])
            ↔ (k ∈ rest ∧ pfGroup rows' k ≠ []) := by
          constructor
          · rintro ⟨h1, h2⟩
            rcases List.mem_cons.mp h1 with h | h
            · exact absurd h.symm hkk
            · exact ⟨h, h2⟩
          · rintro ⟨h1, h2⟩
            exact ⟨List.mem_cons_of_mem _ h1, h2⟩
        rw [if_congr hcond rfl rfl]

theorem mem_keys_of_pfGroup_ne_nil {rows' : List Row} {k : PFKey} :
    pfGroup rows' k ≠ [] ↔ k ∈ rows'.map keyP := by
  constructor
  · intro h
    rcases List.exists_mem_of_ne_nil _ h with ⟨r, hr⟩
    have := List.mem_filter.mp hr
    exact List.mem_map.mpr ⟨r, this.1, by simpa using this.2⟩
  · intro h
    rcases List.mem_map.mp h with ⟨r, hr, hkey⟩
    intro hempty
    have : r ∈ pfGroup rows' k :=
      List.mem_filter.mpr ⟨hr, by simp [hkey]⟩
    rw [hempty] at this
    simp at this

/-- C2: with `higher_intensity=True`, every peptidoform group with at
least one non-missing NormIntensity keeps exactly one row, whose
NormIntensity is the maximum over the group's (non-missing) input rows;
groups with no such row produce no output row. -/
theorem get_peptidoform_normalize_intensities_spec (rows : List Row) (k : PFKey) :
    (pfGroup (rows.filter (fun r => (r.normIntensity).isSome)) k ≠ [] →
      ((get_peptidoform_normalize_intensities rows).filter
          (fun r => decide (keyP r = k))).length = 1
      ∧ (∀ r ∈ get_peptidoform_normalize_intensities rows, keyP r = k →
          valN r = listMax
            ((pfGroup (rows.filter (fun r => (r.normIntensity).isSome)) k).map
              valN)))
    ∧ (pfGroup (rows.filter (fun r => (r.normIntensity).isSome)) k = [] →
      (get_peptidoform_normalize_intensities rows).filter
          (fun r => decide (keyP r = k)) = []) := by
  constructor
  · intro hne
    constructor
    · rw [get_peptidoform_normalize_intensities]
      rw [filterMap_pfSel_filter_length k _ (nodup_dedupKF _)]
      rw [if_pos ⟨mem_dedupKF.mpr (mem_keys_of_pfGroup_ne_nil.mp hne), hne⟩]
    · intro r hr hkey
      rw [get_peptidoform_normalize_intensities] at hr
      rcases List.mem_filterMap.mp hr with ⟨k'', _, hsel⟩
      have hspec := pfSel_some_spec hsel
      have hk2 : k'' = k := by rw [← hspec.2.1, hkey]
      subst hk2
      exact hspec.2.2
  · intro hempty
    rw [get_peptidoform_normalize_intensities]
    apply List.length_eq_zero.mp
    rw [filterMap_pfSel_filter_length k _ (nodup_dedupKF _)]
    rw [if_neg (by rintro ⟨_, h2⟩; exact h2 hempty)]

/-- Witness for C2: two peptidoforms of one group with intensities 3 and
5; exactly one row with that group key remains. -/
theorem get_peptidoform_normalize_intensities_spec_witness :
    ((get_peptidoform_normalize_intensities
        [⟨"P1", "PEP(Ox)TIDEK", "PEPTIDEK", 2, some 3, "S1", "1", "c1"⟩,
         ⟨"P1", "PEP(Ox)TIDEK", "PEPTIDEK", 2, some 5, "S1", "1", "c1"⟩]).filter
        (fun r => decide (keyP r = ("PEP(Ox)TIDEK", 2, "S1", "c1", "1")))).length
      = 1 :=
  ((get_peptidoform_normalize_intensities_spec
      [⟨"P1", "PEP(Ox)TIDEK", "PEPTIDEK", 2, some 3, "S1", "1", "c1"⟩,
       ⟨"P1", "PEP(Ox)TIDEK", "PEPTIDEK", 2, some 5, "S1", "1", "c1"⟩]
      ("PEP(Ox)TIDEK", 2, "S1", "c1", "1")).1 (by decide)).1

/-! ### `Feature.low_frequency_peptides` (peptide_normalization.py lines
325-354), with the default `percentage=0.2` -/

/-- A row of the parquet feature store (columns used by the
low-frequency-peptide aggregation). -/
structure FRow where
  sample_accession : String
  condition : String
  intensity : ℚ
  sequence : String
  pg_accessions : Option (List String)
deriving DecidableEq

/-- `SELECT DISTINCT sample_accession` (`Feature.get_unique_samples`). -/
def unique_samples (rows : List FRow) : List String :=
  dedupKF (rows.map (fun r => r.sample_accession))

/-- `COUNT(DISTINCT sample_accession)` within one (sequence,
pg_accessions) group. -/
def distinctSampleCount (rows : List FRow) (seq : String)
    (pg : Option (List String)) : Nat :=
  (dedupKF ((rows.filter (fun r =>
      decide (r.sequence = seq ∧ r.pg_accessions = pg))).map
    (fun r => r.sample_accession))).length

/-- The grouped result of the SQL query: one row per distinct
(sequence, pg_accessions) pair with its distinct-sample count. -/
def f_table0 (rows : List FRow) : List (String × Option (List String) × Nat) :=
  (dedupKF (rows.map (fun r => (r.sequence, r.pg_accessions)))).map
    (fun p => (p.1, p.2, distinctSampleCount rows p.1 p.2))

/-- After `dropna(subset=["pg_accessions"])`. -/
def f_table1 (rows : List FRow) : List (String × List String × Nat) :=
  (f_table0 rows).filterMap
    (fun t => t.2.1.map (fun pg => (t.1, pg, t.2.2)))

/-- `lambda x: x[0].split("|")[1]`; `none` models an `IndexError`. -/
def parseFirstAcc : List String → Option String
  | [] => none
  | a :: _ => ((splitOnChar '|' a.data).get? 1).map String.mk

/-- The `except IndexError` fallback `lambda x: x[0]`; `none` models an
`IndexError` raised inside the except block (uncaught). -/
def parseFallbackAcc : List String → Option String
  | [] => none
  | a :: _ => some a

/-- Replace the pg_accessions column of one grouped row by the parsed
accession (the `getD` default is unreachable when the parse succeeded). -/
def parseRowMapped (t : String × List String × Nat) : String × String × Nat :=
  (t.1, (parseFirstAcc t.2.1).getD "", t.2.2)

/-- Same for the fallback parser. -/
def parseRowFallback (t : String × List String × Nat) : String × String × Nat :=
  (t.1, (parseFallbackAcc t.2.1).getD "", t.2.2)

/-- The `try/except` pair of pandas `apply` calls over the pg_accessions
column: the first parser is used if it succeeds on every row; otherwise
the fallback is applied to every row; if that also fails anywhere the
exception escapes (`none`). -/
def parsedTable (rows : List FRow) : Option (List (String × String × Nat)) :=
  if (f_table1 rows).all (fun t => (parseFirstAcc t.2.1).isSome) then
    some ((f_table1 rows).map parseRowMapped)
  else if (f_table1 rows).all (fun t => (parseFallbackAcc t.2.1).isSome) then
    some ((f_table1 rows).map parseRowFallback)
  else none

/-- The drop condition of the final `f_table.drop`: a group survives into
the exclusion set when its count is NOT at least 20% of the sample
count. -/
def lowCount (nsamples : Nat) (t : String × String × Nat) : Bool :=
  decide (¬((0.2 : ℚ) * (nsamples : ℚ) ≤ (t.2.2 : ℚ)))

/-- `tuple(zip(f_table["pg_accessions"], f_table["sequence"]))`. -/
def accSeqPair (t : String × String × Nat) : String × String := (t.2.1, t.1)

/-- `Feature.low_frequency_peptides`: drop the groups whose
distinct-sample count is at least `0.2 * len(self.samples)`; the
remaining (accession, sequence) pairs form the exclusion tuple.  `none`
models an uncaught exception escaping the property. -/
def low_frequency_peptides (rows : List FRow) : Option (List (String × String)) :=
  (parsedTable rows).map (fun ft =>
    (ft.filter (lowCount (unique_samples rows).length)).map accSeqPair)

theorem mem_f_table1_of_group {rows : List FRow} {seq : String}
    {pg : List String}
    (h : ∃ r ∈ rows, r.sequence = seq ∧ r.pg_accessions = some pg) :
    (seq, pg, distinctSampleCount rows seq (some pg)) ∈ f_table1 rows := by
  rcases h with ⟨r, hr, h1, h2⟩
  apply List.mem_filterMap.mpr
  refine ⟨(seq, some pg, distinctSampleCount rows seq (some pg)), ?_, by simp⟩
  apply List.mem_map.mpr
  refine ⟨(seq, some pg), ?_, rfl⟩
  exact mem_dedupKF.mpr (List.mem_map.mpr ⟨r, hr, by rw [h1, h2]⟩)

/-- Each grouped row carries the distinct-sample count of its own key. -/
theorem f_table1_count {rows : List FRow} {t : String × List String × Nat}
    (ht : t ∈ f_table1 rows) :
    t.2.2 = distinctSampleCount rows t.1 (some t.2.1) := by
  rcases List.mem_filterMap.mp ht with ⟨t0, ht0, hmap⟩
  rcases List.mem_map.mp ht0 with ⟨p, _, rfl⟩
  cases hpg : p.2 with
  | none => rw [hpg] at hmap; simp at hmap
  | some pg0 =>
    rw [hpg] at hmap
    simp only [Option.map_some', Option.some.injEq] at hmap
    rw [← hmap]

/-- Exclusion-set membership for a concrete group, assuming every grouped
accession parses (the primary parser branch is taken) and distinct
pg_accessions values never collide on their parsed accession within a
sequence. -/
theorem mem_lfp_excl_iff (rows : List FRow) (seq : String) (pg : List String)
    (hgrp : ∃ r ∈ rows, r.sequence = seq ∧ r.pg_accessions = some pg)
    (hall : ∀ t ∈ f_table1 rows, (parseFirstAcc t.2.1).isSome = true)
    (hinj : ∀ t ∈ f_table1 rows, ∀ t' ∈ f_table1 rows, t.1 = t'.1 →
      parseFirstAcc t.2.1 = parseFirstAcc t'.2.1 → t.2.1 = t'.2.1) :
    (((parseFirstAcc pg).getD "", seq)
        ∈ (((f_table1 rows).map parseRowMapped).filter
            (lowCount (unique_samples rows).length)).map accSeqPair)
      ↔ ¬((0.2 : ℚ) * ((unique_samples rows).length : ℚ)
          ≤ (distinctSampleCount rows seq (some pg) : ℚ)) := by
  have htgt : (seq, pg, distinctSampleCount rows seq (some pg)) ∈ f_table1 rows :=
    mem_f_table1_of_group hgrp
  constructor
  · intro h
    rcases List.mem_map.mp h with ⟨s, hs, hgs⟩
    rcases List.mem_filter.mp hs with ⟨hs1, hs2⟩
    rcases List.mem_map.mp hs1 with ⟨t, ht, hht⟩
    rw [← hht] at hgs hs2
    have h1 : (parseFirstAcc t.2.1).getD "" = (parseFirstAcc pg).getD "" :=
      congrArg Prod.fst hgs
    have h2 : t.1 = seq := by
      have := congrArg Prod.snd hgs
      simpa [parseRowMapped, accSeqPair] using this
    rcases Option.isSome_iff_exists.mp (hall t ht) with ⟨a1, ha1⟩
    rcases Option.isSome_iff_exists.mp (hall _ htgt) with ⟨a0, ha0⟩
    have hpeq : parseFirstAcc t.2.1 = parseFirstAcc pg := by
      rw [ha1]
      have ha0' : parseFirstAcc pg = some a0 := ha0
      rw [ha0']
      rw [ha1, ha0'] at h1
      simpa using h1
    have hpg : t.2.1 = pg := hinj t ht _ htgt h2 hpeq
    have hcnt : t.2.2 = distinctSampleCount rows seq (some pg) := by
      rw [f_table1_count ht, h2, hpg]
    rw [lowCount, decide_eq_true_eq] at hs2
    rw [parseRowMapped] at hs2
    simp only at hs2
    rw [hcnt] at hs2
    exact hs2
  · intro h
    apply List.mem_map.mpr
    refine ⟨parseRowMapped (seq, pg, distinctSampleCount rows seq (some pg)),
      List.mem_filter.mpr ⟨List.mem_map_of_mem _ htgt, ?_⟩, ?_⟩
    · rw [lowCount, decide_eq_true_eq]
      exact h
    · rfl

/-- C4: for a (sequence, protein-group) pair present in the data, with
well-formed pipe-delimited accessions and no parsed-accession collision,
the pair is absent from the exclusion set exactly when its
distinct-sample count is at least `0.2 * N`; hence a count of exactly
`⌈0.2 N⌉` is kept as frequent, and a count of `⌈0.2 N⌉ - 1` lands in the
exclusion set. -/
theorem low_frequency_peptides_threshold (rows : List FRow) (seq : String)
    (pg : List String)
    (hgrp : ∃ r ∈ rows, r.sequence = seq ∧ r.pg_accessions = some pg)
    (hall : ∀ t ∈ f_table1 rows, (parseFirstAcc t.2.1).isSome = true)
    (hinj : ∀ t ∈ f_table1 rows, ∀ t' ∈ f_table1 rows, t.1 = t'.1 →
      parseFirstAcc t.2.1 = parseFirstAcc t'.2.1 → t.2.1 = t'.2.1) :
    ∃ excl, low_frequency_peptides rows = some excl
      ∧ (((parseFirstAcc pg).getD "", seq) ∉ excl
          ↔ (0.2 : ℚ) * ((unique_samples rows).length : ℚ)
              ≤ (distinctSampleCount rows seq (some pg) : ℚ))
      ∧ (distinctSampleCount rows seq (some pg)
            = ⌈(0.2 : ℚ) * ((unique_samples rows).length : ℚ)⌉₊ →
          ((parseFirstAcc pg).getD "", seq) ∉ excl)
      ∧ (distinctSampleCount rows seq (some pg)
            = ⌈(0.2 : ℚ) * ((unique_samples rows).length : ℚ)⌉₊ - 1 →
          ((parseFirstAcc pg).getD "", seq) ∈ excl) := by
  have hallb : (f_table1 rows).all (fun t => (parseFirstAcc t.2.1).isSome) = true :=
    List.all_eq_true.mpr hall
  have hres : low_frequency_peptides rows = some
      ((((f_table1 rows).map parseRowMapped).filter
          (lowCount (unique_samples rows).length)).map accSeqPair) := by
    rw [low_frequency_peptides, parsedTable, if_pos hallb, Option.map_some']
  have hiff := mem_lfp_excl_iff rows seq pg hgrp hall hinj
  have hNpos : 0 < (unique_samples rows).length := by
    rcases hgrp with ⟨r, hr, _, _⟩
    have : r.sample_accession ∈ unique_samples rows :=
      mem_dedupKF.mpr (List.mem_map_of_mem _ hr)
    exact List.length_pos.mpr (List.ne_nil_of_mem this)
  have hthrpos : 0 < (0.2 : ℚ) * ((unique_samples rows).length : ℚ) := by
    apply mul_pos (by norm_num)
    exact_mod_cast hNpos
  refine ⟨_, hres, ?_, ?_, ?_⟩
  · rw [not_iff_comm, hiff]
  · intro hc
    rw [hiff, not_not]
    rw [hc]
    exact_mod_cast Nat.le_ceil _
  · intro hc
    rw [hiff]
    have hceil : 0 < ⌈(0.2 : ℚ) * ((unique_samples rows).length : ℚ)⌉₊ :=
      Nat.ceil_pos.mpr hthrpos
    have hlt : distinctSampleCount rows seq (some pg)
        < ⌈(0.2 : ℚ) * ((unique_samples rows).length : ℚ)⌉₊ := by
      rw [hc]
      exact Nat.sub_lt hceil Nat.one_pos
    have := Nat.lt_ceil.mp hlt
    exact not_le.mpr this

/-- Witness table for C4: five samples, the PEPA group seen in exactly
one sample (the 20% boundary: ceil(0.2*5) = 1). -/
def lfpWitnessRows : List FRow :=
  [⟨"S1", "c", 1, "PEPA", some ["sp|A0|NAME"]⟩,
   ⟨"S2", "c", 1, "PEPB", some ["sp|B0|NB"]⟩,
   ⟨"S3", "c", 1, "PEPB", some ["sp|B0|NB"]⟩,
   ⟨"S4", "c", 1, "PEPB", some ["sp|B0|NB"]⟩,
   ⟨"S5", "c", 1, "PEPB", some ["sp|B0|NB"]⟩]

/-- Witness for C4 on `lfpWitnessRows`. -/
theorem low_frequency_peptides_threshold_witness :
    ∃ excl, low_frequency_peptides lfpWitnessRows = some excl
      ∧ (((parseFirstAcc ["sp|A0|NAME"]).getD "", "PEPA") ∉ excl
          ↔ (0.2 : ℚ) * ((unique_samples lfpWitnessRows).length : ℚ)
              ≤ (distinctSampleCount lfpWitnessRows "PEPA"
                  (some ["sp|A0|NAME"]) : ℚ))
      ∧ (distinctSampleCount lfpWitnessRows "PEPA" (some ["sp|A0|NAME"])
            = ⌈(0.2 : ℚ) * ((unique_samples lfpWitnessRows).length : ℚ)⌉₊ →
          ((parseFirstAcc ["sp|A0|NAME"]).getD "", "PEPA") ∉ excl)
      ∧ (distinctSampleCount lfpWitnessRows "PEPA" (some ["sp|A0|NAME"])
            = ⌈(0.2 : ℚ) * ((unique_samples lfpWitnessRows).length : ℚ)⌉₊ - 1 →
          ((parseFirstAcc ["sp|A0|NAME"]).getD "", "PEPA") ∈ excl) :=
  low_frequency_peptides_threshold lfpWitnessRows "PEPA" ["sp|A0|NAME"]
    (by decide) (by decide) (by decide)

/-- C6: the accession parsing inside `low_frequency_peptides` is not
exception-safe.  On a group whose pg_accessions value is the empty list,
the primary parser raises IndexError and the `except IndexError` fallback
`x[0]` raises IndexError again, which escapes the property (modelled as
`none`). -/
theorem low_frequency_peptides_empty_pg_raises :
    low_frequency_peptides [⟨"S1", "c1", 1, "PEPTIDEK", some []⟩] = none := by
  decide

/-- The fallback is also per-table, not per-row: one pipe-free accession
makes every group keep its raw first accession, including groups whose
accession has pipes. -/
theorem low_frequency_peptides_fallback_is_global :
    parsedTable
        [⟨"S1", "c1", 1, "PEPA", some ["sp|A0|NAME"]⟩,
         ⟨"S1", "c1", 1, "PEPB", some ["RAWACC"]⟩]
      = some [("PEPA", "sp|A0|NAME", 1), ("PEPB", "RAWACC", 1)] := by
  decide

/-! ### `peptide_normalization` entry preconditions (peptide_normalization.py
lines 522-560, `Feature.__init__` lines 306-316) -/

inductive PNErr
  | outputExists
  | inputNotFound
deriving DecidableEq

/-- The fail-fast prelude of `peptide_normalization`: `FileExistsError`
when the output path already exists, then `FileNotFoundError` when the
parquet argument is `None`, then `Feature.__init__` raises
`FileNotFoundError` when the parquet path does not exist.  The
filesystem is abstracted as the list of existing paths, and
`pipelineOut` stands for the rows the per-sample loop (modelled stage by
stage above) would append after all checks pass; no error path reaches a
write. -/
def peptide_normalization (existing : List String) (parquet : Option String)
    (output : String) (pipelineOut : List (SumKey × ℚ)) :
    Except PNErr (List (SumKey × ℚ)) :=
  if output ∈ existing then .error .outputExists
  else
    match parquet with
    | none => .error .inputNotFound
    | some p =>
      if p ∈ existing then .ok pipelineOut else .error .inputNotFound

/-- C8: `peptide_normalization` fails fast with the output-exists error
whenever the destination exists, with the input-not-found error whenever
the parquet argument is missing or names an absent path (given the
destination check passed first), and in all those cases returns no
output rows at all. -/
theorem peptide_normalization_failfast (existing : List String)
    (parquet : Option String) (output : String)
    (pipelineOut : List (SumKey × ℚ)) :
    (output ∈ existing →
      peptide_normalization existing parquet output pipelineOut
        = .error .outputExists)
    ∧ (output ∉ existing → parquet = none →
      peptide_normalization existing parquet output pipelineOut
        = .error .inputNotFound)
    ∧ (∀ p, output ∉ existing → parquet = some p → p ∉ existing →
      peptide_normalization existing parquet output pipelineOut
        = .error .inputNotFound)
    ∧ ((output ∈ existing ∨ parquet = none
          ∨ (∃ p, parquet = some p ∧ p ∉ existing)) →
      ∀ out, peptide_normalization existing parquet output pipelineOut
        ≠ .ok out) := by
  refine ⟨?_, ?_, ?_, ?_⟩
  · intro h
    rw [peptide_normalization.eq_def, if_pos h]
  · intro h1 h2
    rw [peptide_normalization.eq_def, if_neg h1, h2]
  · intro p h1 h2 h3
    rw [peptide_normalization.eq_def, if_neg h1, h2]
    simp only
    rw [if_neg h3]
  · rintro (h | h | ⟨p, hp, hnp⟩) out
    · rw [peptide_normalization.eq_def, if_pos h]
      simp
    · rw [peptide_normalization.eq_def]
      by_cases h1 : output ∈ existing
      · rw [if_pos h1]; simp
      · rw [if_neg h1, h]; simp
    · rw [peptide_normalization.eq_def]
      by_cases h1 : output ∈ existing
      · rw [if_pos h1]; simp
      · rw [if_neg h1, hp]
        simp only
        rw [if_neg hnp]
        simp

/-- Witness for C8: the output file already exists. -/
theorem peptide_normalization_failfast_witness :
    peptide_normalization ["out.csv"] (some "in.parquet") "out.csv" []
      = .error .outputExists :=
  (peptide_normalization_failfast ["out.csv"] (some "in.parquet")
    "out.csv" []).1 (by decide)

/-! ### conditionMedian scaling (peptide_normalization.py lines 619-628;
the map comes from `Feature.get_median_map_to_condition`, lines 506-519) -/

/-- Step 9 with `pnmethod == "conditionMedian"`: the scale factor is
looked up under `con = dataset_df[CONDITION].unique()[0]` -- the
condition of the sample's first remaining row -- and EVERY row's
NormIntensity is divided by `med_map[con][sample]`, whatever that row's
own condition is.  `none` models the IndexError of `unique()[0]` on an
empty sample.  `med_map` is the per-condition-per-sample factor map
built by `Feature.get_median_map_to_condition` before the loop. -/
def scale_by_condition_median (med_map : String → String → ℚ) (sample : String)
    (rows : List Row) : Option (List Row) :=
  match (dedupKF (rows.map (fun r => r.condition))).head? with
  | none => none
  | some con => some (rows.map (fun r =>
      { r with normIntensity :=
          r.normIntensity.map (fun v => v / med_map con sample) }))

/-- C10: on a nonempty sample, the factor is taken from the first row's
condition and divides every row's intensity, including rows whose own
condition differs. -/
theorem scale_by_condition_median_spec (med_map : String → String → ℚ)
    (sample : String) (r₀ : Row) (rest : List Row) :
    scale_by_condition_median med_map sample (r₀ :: rest)
      = some ((r₀ :: rest).map (fun r =>
          { r with normIntensity :=
              r.normIntensity.map (fun v => v / med_map r₀.condition sample) })) := by
  have hhead : dedupKF ((r₀ :: rest).map (fun r => r.condition))
      = r₀.condition
          :: dedupKFAux [r₀.condition] (rest.map (fun r => r.condition)) := by
    simp [dedupKF, dedupKFAux]
  rw [scale_by_condition_median, hhead]
  rfl
